import Mathlib

set_option maxHeartbeats 1000000

/-
Verification of the hart control primitives declared in
`sw/device/lib/runtime/hart.h`: `wait_for_interrupt`, `busy_sleep_micros`
and `abort`.  The header defines `wait_for_interrupt` inline as a single
`asm volatile("wfi")` statement; `busy_sleep_micros` and `abort` are only
declared there, so their bodies are modelled from the specification.
-/

namespace HartCtl

/-- The program-visible state of a hart as seen from C: the C-visible
memory (`mem`), the number of CPU cycles consumed so far (`elapsedCycles`,
the wall clock), and whether execution has been halted (`halted`). -/
structure HartState where
  mem : List Nat
  elapsedCycles : Nat
  halted : Bool
deriving DecidableEq, Repr

/-- One spin iteration: burn exactly one CPU cycle; nothing else changes. -/
def tick (s : HartState) : HartState :=
  { s with elapsedCycles := s.elapsedCycles + 1 }

/-- A countdown spin loop of `n` one-cycle iterations. -/
def spin : Nat → HartState → HartState
  | 0, s => s
  | n + 1, s => spin n (tick s)

/-- Modelled from the spec: the body of `busy_sleep_micros` is missing from
the header (only the declaration `void busy_sleep_micros(size_t)` is given).
The spec says it "blocks the calling hart by active spinning (no low-power
wait, no yielding) for approximately `duration` microseconds, calibrated
against the hart's clock rate".  We model it as a spin loop of
`microseconds * cyclesPerMicro` one-cycle iterations, where
`cyclesPerMicro` is the clock-rate calibration constant. -/
def busy_sleep_micros (cyclesPerMicro : Nat) (microseconds : Nat)
    (s : HartState) : HartState :=
  spin (microseconds * cyclesPerMicro) s

/-- Wall-clock time in microseconds under calibration `cyclesPerMicro`. -/
def elapsedMicros (cyclesPerMicro : Nat) (s : HartState) : Nat :=
  s.elapsedCycles / cyclesPerMicro

/-- `wait_for_interrupt` from the source: its whole body is the single
inline-assembly statement `asm volatile("wfi")`, with no output operands
and no memory clobber, so its only architectural effect is to stall the
hart for some environment-chosen number of cycles (`pause`, which is `0`
when the hint behaves as a no-op) until an interrupt arrives. -/
def wait_for_interrupt (pause : Nat) (s : HartState) : HartState :=
  { s with elapsedCycles := s.elapsedCycles + pause }

/-- Modelled from the spec: the body of `abort` is missing from the header
(only the declaration `noreturn void abort(void)` is given).  The spec says
it "immediately and permanently halts further instruction execution on the
calling hart" and "never returns".  We model its effect on the hart state
as raising the halted flag. -/
def abort (s : HartState) : HartState :=
  { s with halted := true }

/-- The instructions a caller of the header can issue. -/
inductive Instr where
  | wfiHint (pause : Nat)
  | busySleep (micros : Nat)
  | abortCall
deriving DecidableEq, Repr

/-- A hart executing a straight-line program of primitive calls: the
calibration constant, the program, the program counter and the hart state. -/
structure Machine where
  cyclesPerMicro : Nat
  prog : List Instr
  pc : Nat
  st : HartState
deriving DecidableEq, Repr

/-- Effect of a single primitive call on the hart state. -/
def execInstr (cyclesPerMicro : Nat) : Instr → HartState → HartState
  | .wfiHint p, s => wait_for_interrupt p s
  | .busySleep d, s => busy_sleep_micros cyclesPerMicro d s
  | .abortCall, s => abort s

/-- One execution step.  A halted hart makes no further progress.  An
`abortCall` halts the hart without advancing the program counter: control
never reaches the instruction after the call site.  Every other call takes
effect and control falls through to the next instruction. -/
def step (m : Machine) : Machine :=
  if m.st.halted then m
  else
    match m.prog[m.pc]? with
    | none => m
    | some Instr.abortCall => { m with st := abort m.st }
    | some i => { m with st := execInstr m.cyclesPerMicro i m.st, pc := m.pc + 1 }

/-- Run the machine for `k` steps. -/
def run : Nat → Machine → Machine
  | 0, m => m
  | k + 1, m => run k (step m)

/-- Small-step view of the spin loop: the remaining iteration count paired
with the hart state; a step with a zero counter is a completed loop. -/
def spinStep : Nat × HartState → Nat × HartState
  | (0, s) => (0, s)
  | (n + 1, s) => (n, tick s)

/-- Run the spin loop for `k` small steps. -/
def spinRun : Nat → Nat × HartState → Nat × HartState
  | 0, p => p
  | k + 1, p => spinRun k (spinStep p)

/-- Modelled from the spec: the architectural wait behaviour behind the
`wfi` hint is not C code at all, so we model the environment as an
interrupt line `irq : Nat → Bool` (`irq t = true` when an interrupt is
pending at cycle `t`).  A waiting hart at cycle `t` wakes as soon as the
line is raised, per the spec: "returns when any interrupt is serviced (or
immediately, if treated as a no-op)". -/
def wfiWaitStep (irq : Nat → Bool) : Nat × Bool → Nat × Bool
  | (t, true) => (t, true)
  | (t, false) => if irq t then (t, true) else (t + 1, false)

/-- Run the wfi wait loop for `k` cycles; the Bool is `true` once the hart
has woken up and the call has returned. -/
def wfiWaitRun : Nat → (Nat → Bool) → Nat × Bool → Nat × Bool
  | 0, _, p => p
  | k + 1, irq, p => wfiWaitRun k irq (wfiWaitStep irq p)

/-- Conversion of a C integer to `size_t` at a call site of
`busy_sleep_micros`: reduction modulo `2 ^ w` where `w` is the width of
`size_t` on the target. -/
def sizeTOfInt (w : Nat) (x : Int) : Nat :=
  (x % (2 ^ w : Int)).toNat

/-- A concrete hart state used to instantiate theorems with hypotheses. -/
def s0 : HartState :=
  { mem := [7, 7], elapsedCycles := 0, halted := false }

/- ------------------------------------------------------------------ -/
/- Basic lemmas about the spin loop and the machine.                   -/
/- ------------------------------------------------------------------ -/

theorem spin_eq (n : Nat) (s : HartState) :
    spin n s = { s with elapsedCycles := s.elapsedCycles + n } := by
  induction n generalizing s with
  | zero => rfl
  | succ k ih =>
    show spin k (tick s) = _
    rw [ih]
    simp only [tick]
    congr 1
    omega

theorem spinRun_countdown (n : Nat) (s : HartState) :
    spinRun n (n, s) = (0, spin n s) := by
  induction n generalizing s with
  | zero => rfl
  | succ k ih =>
    show spinRun k (spinStep (k + 1, s)) = _
    simp only [spinStep, spin]
    exact ih (tick s)

theorem step_of_halted (m : Machine) (h : m.st.halted = true) : step m = m := by
  simp [step, h]

theorem run_of_halted (k : Nat) (m : Machine) (h : m.st.halted = true) :
    run k m = m := by
  induction k with
  | zero => rfl
  | succ n ih =>
    show run n (step m) = m
    rw [step_of_halted m h, ih]

/- ------------------------------------------------------------------ -/
/- Claim theorems.                                                     -/
/- ------------------------------------------------------------------ -/

/-- Claim C1: `abort()` never returns to its caller.  In the machine
semantics, if the instruction at the program counter is an `abort` call,
then after any number of execution steps the program counter still points
at the call site — control never reaches the instruction after it — and
after at least one step the hart is halted for good. -/
theorem abort_never_returns (m : Machine)
    (h : m.prog[m.pc]? = some Instr.abortCall) (k : Nat) :
    (run k m).pc = m.pc ∧ (1 ≤ k → (run k m).st.halted = true) := by
  cases k with
  | zero => exact ⟨rfl, by omega⟩
  | succ n =>
    by_cases hh : m.st.halted = true
    · rw [show run (n + 1) m = run n (step m) from rfl,
        step_of_halted m hh, run_of_halted n m hh]
      exact ⟨rfl, fun _ => hh⟩
    · have hh' : m.st.halted = false := by
        cases hb : m.st.halted
        · rfl
        · exact absurd hb hh
      have hstep : step m = { m with st := abort m.st } := by
        simp [step, hh', h]
      have hrun : run (n + 1) m = { m with st := abort m.st } := by
        rw [show run (n + 1) m = run n (step m) from rfl, hstep]
        exact run_of_halted n _ rfl
      rw [hrun]
      exact ⟨rfl, fun _ => rfl⟩

/-- Witness for C1 on a concrete machine whose first instruction is the
`abort` call, run for two steps. -/
theorem abort_never_returns_witness :
    (Machine.mk 1 [Instr.abortCall] 0 s0).prog[(Machine.mk 1 [Instr.abortCall] 0 s0).pc]?
      = some Instr.abortCall ∧
    ((run 2 (Machine.mk 1 [Instr.abortCall] 0 s0)).pc
        = (Machine.mk 1 [Instr.abortCall] 0 s0).pc ∧
      (1 ≤ 2 → (run 2 (Machine.mk 1 [Instr.abortCall] 0 s0)).st.halted = true)) :=
  ⟨by decide, abort_never_returns (Machine.mk 1 [Instr.abortCall] 0 s0) (by decide) 2⟩

/-- Claim C2: for every duration `d`, `busy_sleep_micros(d)` terminates:
the spin loop, viewed as a small-step system, reaches its completed state
(counter zero) after finitely many steps, returning exactly the state
`busy_sleep_micros` produces. -/
theorem busy_sleep_micros_terminates (cyclesPerMicro d : Nat) (s : HartState) :
    ∃ k, spinRun k (d * cyclesPerMicro, s)
      = (0, busy_sleep_micros cyclesPerMicro d s) :=
  ⟨d * cyclesPerMicro, spinRun_countdown (d * cyclesPerMicro) s⟩

/-- Claim C3: under a positive clock calibration, the wall-clock time
elapsed across `busy_sleep_micros(d)` is exactly `d` microseconds — in
particular at least `d`, well within any tolerance band. -/
theorem busy_sleep_micros_elapsed (cyclesPerMicro d : Nat) (s : HartState)
    (h : 0 < cyclesPerMicro) :
    elapsedMicros cyclesPerMicro s + d
        ≤ elapsedMicros cyclesPerMicro (busy_sleep_micros cyclesPerMicro d s) ∧
    elapsedMicros cyclesPerMicro (busy_sleep_micros cyclesPerMicro d s)
        = elapsedMicros cyclesPerMicro s + d := by
  have he : elapsedMicros cyclesPerMicro (busy_sleep_micros cyclesPerMicro d s)
      = elapsedMicros cyclesPerMicro s + d := by
    simp only [busy_sleep_micros, spin_eq, elapsedMicros]
    exact Nat.add_mul_div_right s.elapsedCycles d h
  exact ⟨le_of_eq he.symm, he⟩

/-- Witness for C3 at calibration 2 cycles per microsecond and a 3
microsecond sleep from the concrete state `s0`. -/
theorem busy_sleep_micros_elapsed_witness :
    0 < 2 ∧
    (elapsedMicros 2 s0 + 3 ≤ elapsedMicros 2 (busy_sleep_micros 2 3 s0) ∧
      elapsedMicros 2 (busy_sleep_micros 2 3 s0) = elapsedMicros 2 s0 + 3) :=
  ⟨by decide, busy_sleep_micros_elapsed 2 3 s0 (by decide)⟩

/-- Claim C4: `busy_sleep_micros` has no error conditions: for every
duration it returns normally — the hart is not halted and the C-visible
memory is untouched — and a zero duration returns immediately, leaving the
state entirely unchanged. -/
theorem busy_sleep_micros_no_error (cyclesPerMicro : Nat) :
    (∀ d s, (busy_sleep_micros cyclesPerMicro d s).halted = s.halted ∧
      (busy_sleep_micros cyclesPerMicro d s).mem = s.mem) ∧
    ∀ s, busy_sleep_micros cyclesPerMicro 0 s = s := by
  constructor
  · intro d s
    simp [busy_sleep_micros, spin_eq]
  · intro s
    simp [busy_sleep_micros, spin]

/-- Claim C5: `wait_for_interrupt()` may behave as a no-op — with a zero
environment-chosen stall it returns the state unchanged — and for every
stall it produces no value and no error: the C-visible memory and the
halted flag are untouched. -/
theorem wait_for_interrupt_may_noop :
    (∀ s, wait_for_interrupt 0 s = s) ∧
    ∀ p s, (wait_for_interrupt p s).mem = s.mem ∧
      (wait_for_interrupt p s).halted = s.halted :=
  ⟨fun _ => rfl, fun _ _ => ⟨rfl, rfl⟩⟩

theorem wfiWaitRun_of_woken (k t : Nat) (irq : Nat → Bool) :
    wfiWaitRun k irq (t, true) = (t, true) := by
  induction k with
  | zero => rfl
  | succ n ih =>
    show wfiWaitRun n irq (wfiWaitStep irq (t, true)) = _
    rw [show wfiWaitStep irq (t, true) = (t, true) from rfl, ih]

theorem wfiWaitRun_reaches (n : Nat) : ∀ t : Nat, ∀ irq : Nat → Bool,
    irq (t + n) = true → (wfiWaitRun (n + 1) irq (t, false)).2 = true := by
  induction n with
  | zero =>
    intro t irq h
    have hq : irq t = true := by simpa using h
    show (wfiWaitRun 0 irq (wfiWaitStep irq (t, false))).2 = true
    simp [wfiWaitStep, wfiWaitRun, hq]
  | succ n ih =>
    intro t irq h
    show (wfiWaitRun (n + 1) irq (wfiWaitStep irq (t, false))).2 = true
    by_cases hq : irq t = true
    · simp only [wfiWaitStep, hq, if_pos]
      rw [wfiWaitRun_of_woken]
    · have hq' : irq t = false := by
        cases hb : irq t
        · rfl
        · exact absurd hb hq
      simp only [wfiWaitStep, hq', Bool.false_eq_true, if_neg, if_false]
      exact ih (t + 1) irq (by rw [show t + 1 + n = t + (n + 1) from by omega]; exact h)

theorem wfiWaitRun_only_after (k : Nat) : ∀ p : Nat × Bool, ∀ irq : Nat → Bool,
    p.2 = false → ∀ t' : Nat, wfiWaitRun k irq p = (t', true) → irq t' = true := by
  induction k with
  | zero =>
    intro p irq hp t' hr
    rw [show wfiWaitRun 0 irq p = p from rfl] at hr
    rw [hr] at hp
    exact absurd hp (by simp)
  | succ n ih =>
    intro p irq hp t' hr
    obtain ⟨u, b⟩ := p
    have hb : b = false := hp
    subst hb
    rw [show wfiWaitRun (n + 1) irq (u, false)
        = wfiWaitRun n irq (wfiWaitStep irq (u, false)) from rfl] at hr
    by_cases hq : irq u = true
    · rw [show wfiWaitStep irq (u, false) = (u, true) from by
        simp [wfiWaitStep, hq]] at hr
      rw [wfiWaitRun_of_woken] at hr
      have : u = t' := congrArg Prod.fst hr
      rw [← this]
      exact hq
    · have hq' : irq u = false := by
        cases hb2 : irq u
        · rfl
        · exact absurd hb2 hq
      rw [show wfiWaitStep irq (u, false) = (u + 1, false) from by
        simp [wfiWaitStep, hq']] at hr
      exact ih (u + 1, false) irq rfl t' hr

/-- Claim C6: in an environment whose interrupt line is eventually raised,
`wait_for_interrupt()` eventually returns: the no-op mode returns
immediately with the state unchanged, the waiting mode wakes within the
time at which the interrupt fires, and whenever the wait loop has returned
it did so at a cycle where an interrupt was actually pending. -/
theorem wait_for_interrupt_eventually_returns (irq : Nat → Bool) (t : Nat)
    (h : irq t = true) :
    (∀ s, wait_for_interrupt 0 s = s) ∧
    (wfiWaitRun (t + 1) irq (0, false)).2 = true ∧
    ∀ k t', wfiWaitRun k irq (0, false) = (t', true) → irq t' = true := by
  refine ⟨fun _ => rfl, ?_, ?_⟩
  · exact wfiWaitRun_reaches t 0 irq (by simpa using h)
  · intro k t' hr
    exact wfiWaitRun_only_after k (0, false) irq rfl t' hr

/-- Witness for C6 with an interrupt line raised exactly at cycle 1. -/
theorem wait_for_interrupt_eventually_returns_witness :
    (fun n => n == 1) 1 = true ∧
    ((∀ s, wait_for_interrupt 0 s = s) ∧
      (wfiWaitRun 2 (fun n => n == 1) (0, false)).2 = true ∧
      ∀ k t', wfiWaitRun k (fun n => n == 1) (0, false) = (t', true) →
        (fun n => n == 1) t' = true) :=
  ⟨by decide, wait_for_interrupt_eventually_returns (fun n => n == 1) 1 (by decide)⟩

/-- Claim C7: the three primitives are stateless and idempotent: each
call's individually-scoped effect is the same regardless of the incoming
state — `wait_for_interrupt` adds exactly its stall, `busy_sleep_micros`
adds exactly its calibrated cycle count, neither touches the C-visible
memory, `abort` is literally idempotent, and no call mutates persistent
memory that a later call could observe. -/
theorem primitives_stateless_idempotent (cyclesPerMicro p d : Nat)
    (s : HartState) :
    (wait_for_interrupt p s).mem = s.mem ∧
    (wait_for_interrupt p s).elapsedCycles = s.elapsedCycles + p ∧
    (busy_sleep_micros cyclesPerMicro d s).mem = s.mem ∧
    (busy_sleep_micros cyclesPerMicro d s).elapsedCycles
        = s.elapsedCycles + d * cyclesPerMicro ∧
    abort (abort s) = abort s ∧
    (abort s).mem = s.mem := by
  refine ⟨rfl, rfl, ?_, ?_, rfl, rfl⟩
  · simp [busy_sleep_micros, spin_eq]
  · simp [busy_sleep_micros, spin_eq]

/-- Claim C8: the sequence `wait_for_interrupt(); busy_sleep_micros(100);
wait_for_interrupt();` completes without crashing — the halted flag is
untouched — and has no side effect beyond timing: the C-visible memory is
unchanged and only the elapsed cycle count grows. -/
theorem call_sequence_no_side_effects (cyclesPerMicro p1 p2 : Nat)
    (s : HartState) :
    (wait_for_interrupt p2
        (busy_sleep_micros cyclesPerMicro 100 (wait_for_interrupt p1 s))).mem
      = s.mem ∧
    (wait_for_interrupt p2
        (busy_sleep_micros cyclesPerMicro 100 (wait_for_interrupt p1 s))).halted
      = s.halted ∧
    (wait_for_interrupt p2
        (busy_sleep_micros cyclesPerMicro 100
          (wait_for_interrupt p1 s))).elapsedCycles
      = s.elapsedCycles + p1 + 100 * cyclesPerMicro + p2 := by
  refine ⟨?_, ?_, ?_⟩ <;>
    simp [busy_sleep_micros, spin_eq, wait_for_interrupt]

/-- Claim C9: `wait_for_interrupt` is the single `asm volatile("wfi")`
hint with no output operands and no memory clobber, so executing it in the
machine semantics leaves every C-visible part of the state — the memory
and the halted flag — unchanged, and control simply falls through to the
next instruction. -/
theorem wait_for_interrupt_frame (m : Machine) (p : Nat)
    (h1 : m.st.halted = false)
    (h2 : m.prog[m.pc]? = some (Instr.wfiHint p)) :
    (step m).st.mem = m.st.mem ∧
    (step m).st.halted = false ∧
    (step m).pc = m.pc + 1 := by
  have hstep : step m
      = { m with st := wait_for_interrupt p m.st, pc := m.pc + 1 } := by
    simp [step, h1, h2, execInstr]
  rw [hstep]
  exact ⟨rfl, h1, rfl⟩

/-- Witness for C9 on a concrete machine whose first instruction is a
`wait_for_interrupt` hint with a stall of 5 cycles. -/
theorem wait_for_interrupt_frame_witness :
    (Machine.mk 1 [Instr.wfiHint 5] 0 s0).st.halted = false ∧
    (Machine.mk 1 [Instr.wfiHint 5] 0 s0).prog[(Machine.mk 1 [Instr.wfiHint 5] 0 s0).pc]?
      = some (Instr.wfiHint 5) ∧
    ((step (Machine.mk 1 [Instr.wfiHint 5] 0 s0)).st.mem
        = (Machine.mk 1 [Instr.wfiHint 5] 0 s0).st.mem ∧
      (step (Machine.mk 1 [Instr.wfiHint 5] 0 s0)).st.halted = false ∧
      (step (Machine.mk 1 [Instr.wfiHint 5] 0 s0)).pc
        = (Machine.mk 1 [Instr.wfiHint 5] 0 s0).pc + 1) :=
  ⟨by decide, by decide,
    wait_for_interrupt_frame (Machine.mk 1 [Instr.wfiHint 5] 0 s0) 5
      (by decide) (by decide)⟩

/-- Claim C10: the duration parameter of `busy_sleep_micros` has type
`size_t`, so no duration is rejected: a negative C integer `x` with
`-2 ^ w ≤ x < 0` passed at a call site is converted modulo `2 ^ w` into
the valid (and large) duration `2 ^ w + x`, which is below `2 ^ w` and is
accepted by `busy_sleep_micros` without any error. -/
theorem busy_sleep_micros_size_t (w : Nat) (x : Int) (hx : x < 0)
    (hw : -(2 ^ w : Int) ≤ x) :
    sizeTOfInt w x = ((2 ^ w : Int) + x).toNat ∧
    sizeTOfInt w x < 2 ^ w ∧
    ∀ cyclesPerMicro s,
      (busy_sleep_micros cyclesPerMicro (sizeTOfInt w x) s).halted
        = s.halted := by
  have hn : (0 : Int) < 2 ^ w := by positivity
  have hmod : x % (2 ^ w : Int) = (2 ^ w : Int) + x := by
    have h1 : ((2 ^ w : Int) + x) % (2 ^ w : Int) = x % (2 ^ w : Int) := by
      rw [show (2 ^ w : Int) + x = x + (2 ^ w : Int) * 1 from by ring]
      exact Int.add_mul_emod_self_left x (2 ^ w) 1
    have h2 : ((2 ^ w : Int) + x) % (2 ^ w : Int) = (2 ^ w : Int) + x :=
      Int.emod_eq_of_lt (by omega) (by omega)
    omega
  refine ⟨?_, ?_, ?_⟩
  · simp only [sizeTOfInt, hmod]
  · have : sizeTOfInt w x = ((2 ^ w : Int) + x).toNat := by
      simp only [sizeTOfInt, hmod]
    rw [this]
    have hcast : ((2 ^ w : Nat) : Int) = (2 ^ w : Int) := by push_cast; ring
    omega
  · intro cyclesPerMicro s
    simp [busy_sleep_micros, spin_eq]

/-- Witness for C10 at a 4-bit `size_t` width and the negative argument
`-3`, which converts to the duration 13. -/
theorem busy_sleep_micros_size_t_witness :
    (-3 : Int) < 0 ∧ -(2 ^ 4 : Int) ≤ (-3 : Int) ∧
    (sizeTOfInt 4 (-3) = ((2 ^ 4 : Int) + (-3)).toNat ∧
      sizeTOfInt 4 (-3) < 2 ^ 4 ∧
      ∀ cyclesPerMicro s,
        (busy_sleep_micros cyclesPerMicro (sizeTOfInt 4 (-3)) s).halted
          = s.halted) :=
  ⟨by decide, by decide, busy_sleep_micros_size_t 4 (-3) (by decide) (by decide)⟩

end HartCtl
